import Mathlib

/-! AMP parallel reduction and Mandelbrot kernel: a shallow embedding.

Two programs are embedded here.

* `src/Histogram/reductionBB.cpp`: the tiled reduction `vector_sum_amp_tiled`.
  Accelerator buffers are lists whose length is the buffer's extent, every
  indexed access is bounds checked, and the `while` loop carries fuel (one unit
  per reduction pass) because the loop condition alone does not bound it.
  `element_count` is an `int` that the array constructors require to be
  positive and that only ever shrinks, so it is a natural number here.
  Element values live in an arbitrary type with `+` and `0`.
  Two refinements of the same code follow the plain embedding: the kernel of
  one tile under an arbitrary order of its threads before the barrier, and the
  function with its `try`/`catch`, where an oracle tells at which site the
  accelerator runtime raises; the buffer set-up, which comes before the loop,
  is one such site.
* `src/Histogram/Histogram/Histogram.cpp`: the Mandelbrot kernel
  `compute_mandelbrot` with its helpers.  `double` and `float` are two
  arbitrary types carrying the operations the kernel uses; the narrowing of a
  `double` to a `float`, the promotion of a `float` to a `double` and
  `fast_math::sqrt` are parameters.  No law of arithmetic is assumed, so the
  machine's rounding arithmetic is one instance and exact arithmetic in an
  ordered field, with both conversions the identity, is another.  `write_tga`
  is the list of bytes it hands to the output stream, and `makeColour` works on
  two's complement integers.
-/

namespace AmpReduction

/-- Tile size, `#define TS 32`. -/
def TS : Nat := 32

/-- Ways in which a run of the embedded reduction can fail to produce a value. -/
inductive Failure where
  | out_of_bounds
  | out_of_fuel
  deriving DecidableEq, Repr

/-- Read `buf[i]` from a buffer of extent `buf.length`. -/
def read {α : Type} (buf : List α) (i : Nat) : Except Failure α :=
  match buf[i]? with
  | some v => .ok v
  | none => .error .out_of_bounds

/-- Store `buf[i] = v` into a buffer of extent `buf.length`. -/
def write {α : Type} (buf : List α) (i : Nat) (v : α) : Except Failure (List α) :=
  if i < buf.length then .ok (buf.set i v) else .error .out_of_bounds

/-- First phase of the kernel for one tile, up to the barrier: the threads with
`local_idx < n` have executed `tile_data[local_idx] = av_src[tidx.global]`, where
`tidx.global = tile * TS + local_idx`.  The result lists the filled slots. -/
def stage_tile {α : Type} (av_src : List α) (tile : Nat) : Nat → Except Failure (List α)
  | 0 => .ok []
  | n + 1 =>
    match stage_tile av_src tile n with
    | .error e => .error e
    | .ok tile_data =>
      match read av_src (tile * TS + n) with
      | .error e => .error e
      | .ok v => .ok (tile_data ++ [v])

/-- The kernel body for one tile: all `TS` threads stage their element into
`tile_data`, wait at the barrier, and the thread with `local_idx == 0` executes
`av_dst[tidx.tile] = tile_data[0]`.  There is no combining step between the
barrier and the store. -/
def tile_kernel {α : Type} (av_src av_dst : List α) (tile : Nat) : Except Failure (List α) :=
  match stage_tile av_src tile TS with
  | .error e => .error e
  | .ok tile_data =>
    match read tile_data 0 with
    | .error e => .error e
    | .ok v => write av_dst tile v

/-- The launch `parallel_for_each(extent<1>(element_count).tile<TS>(), ...)`
restricted to the tiles `0 .. n-1`.  Tiles touch disjoint output slots, so they
are run in index order. -/
def run_tiles {α : Type} (av_src : List α) : Nat → List α → Except Failure (List α)
  | 0, av_dst => .ok av_dst
  | n + 1, av_dst =>
    match run_tiles av_src n av_dst with
    | .error e => .error e
    | .ok d => tile_kernel av_src d n

/-- Loop state of `vector_sum_amp_tiled`.  `trace` is a ghost field: it records,
oldest first, the value of `element_count` at the start of every pass executed. -/
structure LoopState (α : Type) where
  element_count : Nat
  av_src : List α
  av_dst : List α
  trace : List Nat

/-- Number of reduction passes executed so far. -/
def LoopState.passes {α : Type} (st : LoopState α) : Nat := st.trace.length

/-- One iteration of the `while` body: launch the kernel over
`element_count / TS` tiles, then `element_count /= TS` and
`std::swap(av_src, av_dst)`. -/
def reduction_pass {α : Type} (st : LoopState α) : Except Failure (LoopState α) :=
  match run_tiles st.av_src (st.element_count / TS) st.av_dst with
  | .error e => .error e
  | .ok d =>
    .ok { element_count := st.element_count / TS
          av_src := d
          av_dst := st.av_src
          trace := st.trace ++ [st.element_count] }

/-- The loop `while ((element_count % TS) == 0) { ... }`.  Each pass costs one
unit of fuel; the condition is tested before fuel is looked at, so a state that
fails the test is returned whatever the fuel. -/
def reduce_loop {α : Type} : Nat → LoopState α → Except Failure (LoopState α)
  | fuel, st =>
    if st.element_count % TS = 0 then
      match fuel with
      | 0 => .error .out_of_fuel
      | fuel + 1 =>
        match reduction_pass st with
        | .error e => .error e
        | .ok st1 => reduce_loop fuel st1
    else .ok st

/-- Buffer set-up: `arr_1(element_count, source.begin())` holds the first
`element_count` source values, `arr_2` has extent
`(element_count / TS) ? (element_count / TS) : 1` and unspecified contents,
here the value `junk` in every slot. -/
def setup {α : Type} (element_count : Nat) (source : List α) (junk : α) : LoopState α :=
  { element_count := element_count
    av_src := source.take element_count
    av_dst := List.replicate (if element_count / TS ≠ 0 then element_count / TS else 1) junk
    trace := [] }

/-- View `av.section(0, n)` copied to a host vector of `n` elements. -/
def section_copy {α : Type} (av : List α) (n : Nat) : Except Failure (List α) :=
  if n ≤ av.length then .ok (av.take n) else .error .out_of_bounds

/-- Host summation `std::accumulate(result.begin(), result.end(), 0.f)`. -/
def accumulate {α : Type} [Add α] [Zero α] (result : List α) : α :=
  result.foldl (fun acc x => acc + x) 0

/-- The vector handed to the host summation: the loop, then
`copy(av_src.section(0, element_count), result.begin())`. -/
def host_result {α : Type} (fuel element_count : Nat) (source : List α) (junk : α) :
    Except Failure (List α) :=
  match reduce_loop fuel (setup element_count source junk) with
  | .error e => .error e
  | .ok st => section_copy st.av_src st.element_count

/-- The function `vector_sum_amp_tiled(element_count, source)`. -/
def vector_sum_amp_tiled {α : Type} [Add α] [Zero α] (fuel element_count : Nat)
    (source : List α) (junk : α) : Except Failure α :=
  match host_result fuel element_count source junk with
  | .error e => .error e
  | .ok result => .ok (accumulate result)

/-- Staging phase of one tile when its threads take their turn in the order
`order`, a list of `local_idx` values: each thread `l` executes
`tile_data[l] = av_src[tile * TS + l]` on the scratch array `tile_data`. -/
def stage_in_order {α : Type} (av_src : List α) (tile : Nat) :
    List Nat → List α → Except Failure (List α)
  | [], tile_data => .ok tile_data
  | l :: rest, tile_data =>
    match read av_src (tile * TS + l) with
    | .error e => .error e
    | .ok v =>
      match write tile_data l v with
      | .error e => .error e
      | .ok td => stage_in_order av_src tile rest td

/-- The kernel body for one tile under a thread schedule.  The scratch array
`tile_static float tile_data[TS]` starts with unspecified contents (`junk` in
every slot); the threads stage their element in the order `order`; all wait at
`tidx.barrier.wait()`; after the barrier the thread with `local_idx == 0`
executes `av_dst[tidx.tile] = tile_data[0]`. -/
def tile_kernel_in_order {α : Type} (av_src av_dst : List α) (tile : Nat)
    (order : List Nat) (junk : α) : Except Failure (List α) :=
  match stage_in_order av_src tile order (List.replicate TS junk) with
  | .error e => .error e
  | .ok tile_data =>
    match read tile_data 0 with
    | .error e => .error e
    | .ok v => write av_dst tile v

/-- The loop states a call `vector_sum_amp_tiled(N, source)` passes through: the
state after buffer set-up, and the state after each pass taken from a state
that meets the loop condition. -/
inductive Reachable {α : Type} (N : Nat) (source : List α) (junk : α) : LoopState α → Prop where
  | start : Reachable N source junk (setup N source junk)
  | pass (st st1 : LoopState α) : Reachable N source junk st →
      st.element_count % TS = 0 → reduction_pass st = .ok st1 → Reachable N source junk st1

/-- Extent of `arr_2`: `(element_count / TS) ? (element_count / TS) : 1`. -/
def arr_2_extent (element_count : Nat) : Nat :=
  if element_count / TS ≠ 0 then element_count / TS else 1

/-- Places in `vector_sum_amp_tiled` where the accelerator runtime may raise a
`Concurrency::runtime_exception`: the buffer set-up before the `try` (the
`array` and `array_view` constructors and `discard_data`), the kernel launch of
the pass with a given index (with the swap and `discard_data` that follow it),
and the final `copy` of the section to the host. -/
inductive Site where
  | buffer_setup
  | launch (pass : Nat)
  | host_copy
  deriving DecidableEq

/-- What can stop the body of the `try` block: an exception of the accelerator
runtime, or one of the embedding's own failures. -/
inductive Raised where
  | runtime_exception
  | model (f : Failure)
  deriving DecidableEq

/-- How a call ends as its caller sees it: it returns a value, an exception
leaves the function, or the embedding fails. -/
inductive Outcome (β : Type) where
  | returned (v : β)
  | propagated
  | stuck (f : Failure)

/-- The `while` loop inside the `try`, where `throws` tells at which sites the
runtime raises. -/
def reduce_loop_exc {α : Type} (throws : Site → Bool) :
    Nat → LoopState α → Except Raised (LoopState α)
  | fuel, st =>
    if st.element_count % TS = 0 then
      match fuel with
      | 0 => .error (.model .out_of_fuel)
      | fuel + 1 =>
        if throws (.launch st.passes) then .error .runtime_exception
        else
          match reduction_pass st with
          | .error e => .error (.model e)
          | .ok st1 => reduce_loop_exc throws fuel st1
    else .ok st

/-- The body of the `try` block: the loop, the copy of the section to the host
and the host summation. -/
def try_block {α : Type} [Add α] [Zero α] (throws : Site → Bool) (fuel : Nat)
    (st : LoopState α) : Except Raised α :=
  match reduce_loop_exc throws fuel st with
  | .error e => .error e
  | .ok st1 =>
    if throws .host_copy then .error .runtime_exception
    else
      match section_copy st1.av_src st1.element_count with
      | .error e => .error (.model e)
      | .ok result => .ok (accumulate result)

/-- The function `vector_sum_amp_tiled` with its exception handling.  The buffer
set-up stands before the `try`, so an exception raised there leaves the
function.  The handler `catch (const Concurrency::runtime_exception& ex)` shows
a message box and control falls through to `return 0;`. -/
def vector_sum_amp_tiled_exc {α : Type} [Add α] [Zero α] (throws : Site → Bool)
    (fuel element_count : Nat) (source : List α) (junk : α) : Outcome α :=
  if throws .buffer_setup then .propagated
  else
    match try_block throws fuel (setup element_count source junk) with
    | .ok v => .returned v
    | .error .runtime_exception => .returned 0
    | .error (.model f) => .stuck f

end AmpReduction

namespace Mandelbrot

/-- Image width, `const int WIDTH = 1920`. -/
def WIDTH : Nat := 1920

/-- Image height, `const int HEIGHT = 1200`. -/
def HEIGHT : Nat := 1200

/-- Iteration cap, `const int MAX_ITERATIONS = 500`. -/
def MAX_ITERATIONS : Nat := 500

/-- The `struct Complex1 { float x; float y; }`, over a number type `K`. -/
structure Complex1 (K : Type) where
  x : K
  y : K

/-- The function `c_add`. -/
def c_add {K : Type} [Add K] (c1 c2 : Complex1 K) : Complex1 K :=
  let a := c1.x
  let b := c1.y
  let c := c2.x
  let d := c2.y
  { x := a + c, y := b + d }

/-- The function `c_abs`; `sqrt` stands for `concurrency::fast_math::sqrt`. -/
def c_abs {K : Type} [Add K] [Mul K] (sqrt : K → K) (c : Complex1 K) : K :=
  sqrt (c.x * c.x + c.y * c.y)

/-- The function `c_mul`. -/
def c_mul {K : Type} [Add K] [Sub K] [Mul K] (c1 c2 : Complex1 K) : Complex1 K :=
  let a := c1.x
  let b := c1.y
  let c := c2.x
  let d := c2.y
  { x := a * c - b * d, y := b * c + a * d }

/-- The point of the plane the kernel computes for the thread with `idx[0] = h`
and `idx[1] = w`:
`c.x = left + (h * (right - left) / WIDTH)`, `c.y = top + (w * (bottom - top) / HEIGHT)`.
The right-hand sides are computed in `double` (the type `D`, with the `int`
index and constant converted to `double`), and the assignment to the `float`
fields of `c` (the type `F`) narrows the result: `narrow`. -/
def plane_point {D F : Type} [Add D] [Sub D] [Mul D] [Div D] [NatCast D] (narrow : D → F)
    (left right top bottom : D) (h w : Nat) : Complex1 F :=
  { x := narrow (left + ((h : D) * (right - left) / (WIDTH : D)))
    y := narrow (top + ((w : D) * (bottom - top) / (HEIGHT : D))) }

/-- The loop `while (c_abs(z) < 2.0 && iterations < MAX_ITERATIONS)` with body
`z.x = z.x * z.x + c.x; z.y = z.y * z.y + c.y; ++iterations;`.  The body and
`c_abs` work in `float` (`F`); the test promotes the `float` result of `c_abs`
to `double` (`widen`) and compares it with the `double` literal `2.0`.  It
returns the final value of `iterations`. -/
def escape_loop {D F : Type} [Add F] [Mul F] [LT D] [∀ a b : D, Decidable (a < b)] [OfNat D 2]
    (sqrt : F → F) (widen : F → D) (c z : Complex1 F) (iterations : Nat) : Nat :=
  if widen (c_abs sqrt z) < 2 ∧ iterations < MAX_ITERATIONS then
    escape_loop sqrt widen c { x := z.x * z.x + c.x, y := z.y * z.y + c.y } (iterations + 1)
  else iterations
termination_by MAX_ITERATIONS - iterations
decreasing_by omega

/-- The value the kernel thread `(h, w)` stores into `a[h][w]`.  No law is
assumed of the arithmetic: `D` and `F` are any types with the operations the
kernel uses, so the machine's `double` and `float` are one instance and an
exact ordered field (with `narrow` and `widen` the identity) is another. -/
def mandelbrot_kernel {D F : Type} [Add D] [Sub D] [Mul D] [Div D] [NatCast D]
    [LT D] [∀ a b : D, Decidable (a < b)] [OfNat D 2] [Add F] [Mul F] [Zero F]
    (sqrt : F → F) (narrow : D → F) (widen : F → D)
    (left right top bottom : D) (h w : Nat) : Nat :=
  let c := plane_point narrow left right top bottom h w
  let z : Complex1 F := { x := 0, y := 0 }
  let iterations := escape_loop sqrt widen c z 0
  if iterations = MAX_ITERATIONS then 0x000000 else 0xFFFFFF

/-- The image `uint32_t image[HEIGHT][WIDTH]`, indexed `image h w`. -/
def Grid : Type := Nat → Nat → Nat

/-- The store `a[h][w] = v`. -/
def store (a : Grid) (h w v : Nat) : Grid :=
  fun i j => if i = h ∧ j = w then v else a i j

/-- The threads `(h, 0) .. (h, n-1)` of one row of a `parallel_for_each`, each
storing `body h w` into its own cell. -/
def run_row (body : Nat → Nat → Nat) (h : Nat) : Nat → Grid → Grid
  | 0, a => a
  | n + 1, a => store (run_row body h n a) h n (body h n)

/-- The launch `parallel_for_each(a.extent, ...)` over rows `0 .. n-1` of width
`W`.  Threads write disjoint cells, so they are run in index order. -/
def run_grid (body : Nat → Nat → Nat) (W : Nat) : Nat → Grid → Grid
  | 0, a => a
  | n + 1, a => run_row body n W (run_grid body W n a)

/-- The function `compute_mandelbrot(left, right, top, bottom, ymin, ymax)`,
acting on the global `image` through the view `a` of extent `HEIGHT` by `WIDTH`.
The body never mentions `ymin` or `ymax`. -/
def compute_mandelbrot {D F : Type} [Add D] [Sub D] [Mul D] [Div D] [NatCast D]
    [LT D] [∀ a b : D, Decidable (a < b)] [OfNat D 2] [Add F] [Mul F] [Zero F]
    (sqrt : F → F) (narrow : D → F) (widen : F → D)
    (left right top bottom : D) (ymin ymax : Int) (image : Grid) : Grid :=
  let _ := ymin
  let _ := ymax
  run_grid (mandelbrot_kernel sqrt narrow widen left right top bottom) WIDTH HEIGHT image

/-- The function `compute_mandelbrot` with its exception handling: it has no
`try`, so when the runtime raises during the call (`throws`) the exception
leaves the function. -/
def compute_mandelbrot_exc {D F : Type} [Add D] [Sub D] [Mul D] [Div D] [NatCast D]
    [LT D] [∀ a b : D, Decidable (a < b)] [OfNat D 2] [Add F] [Mul F] [Zero F]
    (throws : Bool) (sqrt : F → F) (narrow : D → F) (widen : F → D)
    (left right top bottom : D) (ymin ymax : Int) (image : Grid) : AmpReduction.Outcome Grid :=
  if throws then .propagated
  else .returned (compute_mandelbrot sqrt narrow widen left right top bottom ymin ymax image)

/-- The body of the iteration loop:
`z.x = (z.x * z.x) + c.x; z.y = (z.y * z.y) + c.y;`. -/
def iteration_step {K : Type} [Add K] [Mul K] (z c : Complex1 K) : Complex1 K :=
  { x := (z.x * z.x) + c.x, y := (z.y * z.y) + c.y }

/-- The function `makeColour(int r, int g, int b)`:
`((r & 0xff) << 16) + ((g & 0xff) << 8) + (b & 0xff)`, computed on two's
complement integers and returned as a 32-bit `unsigned long`. -/
def makeColour (r g b : Int) : Nat :=
  (((Int.land r 0xff <<< ((16 : Nat) : Int)) + (Int.land g 0xff <<< ((8 : Nat) : Int))
      + Int.land b 0xff) % 2 ^ 32).toNat

/-- The array `uint8_t header[18]` of `write_tga`. -/
def header : List Nat :=
  [0, 0, 2, 0, 0, 0, 0, 0, 0, 0, 0, 0,
    WIDTH &&& 0xFF, (WIDTH >>> 8) &&& 0xFF,
    HEIGHT &&& 0xFF, (HEIGHT >>> 8) &&& 0xFF,
    24, 0]

/-- The array `uint8_t pixel[3]` that `write_tga` builds from one image value. -/
def pixel (v : Nat) : List Nat :=
  [v &&& 0xFF, (v >>> 8) &&& 0xFF, (v >>> 16) &&& 0xFF]

/-- Bytes written by the inner loop `for (int x = 0; x < n; ++x)` for row `y`. -/
def write_row (image : Grid) (y : Nat) : Nat → List Nat
  | 0 => []
  | x + 1 => write_row image y x ++ pixel (image y x)

/-- Bytes written by the outer loop `for (int y = 0; y < n; ++y)`. -/
def write_rows (image : Grid) : Nat → List Nat
  | 0 => []
  | y + 1 => write_rows image y ++ write_row image y WIDTH

/-- The bytes `write_tga` hands to `outfile.write`, in order: the header, then
every pixel of every row. -/
def write_tga (image : Grid) : List Nat :=
  header ++ write_rows image HEIGHT

end Mandelbrot

namespace AmpReduction

/-! ## Helper lemmas for the reduction -/

theorem TS_pos : 0 < TS := by decide

theorem read_ok {α : Type} (buf : List α) (i : Nat) (d : α) (h : i < buf.length) :
    read buf i = .ok (buf.getD i d) := by
  unfold read
  rw [List.getD_eq_getElem?_getD, List.getElem?_eq_getElem h]
  rfl

theorem write_ok {α : Type} (buf : List α) (i : Nat) (v : α) (h : i < buf.length) :
    write buf i v = .ok (buf.set i v) := by
  unfold write
  rw [if_pos h]

theorem stage_tile_ok {α : Type} (av_src : List α) (tile n : Nat)
    (h : tile * TS + n ≤ av_src.length) :
    stage_tile av_src tile n = .ok ((av_src.drop (tile * TS)).take n) := by
  induction n with
  | zero => simp [stage_tile]
  | succ n ih =>
    have hlt : tile * TS + n < av_src.length := by omega
    rw [stage_tile, ih (by omega)]
    simp only [read, List.getElem?_eq_getElem hlt]
    rw [List.take_succ, List.getElem?_drop, List.getElem?_eq_getElem hlt]
    rfl

theorem tile_kernel_ok {α : Type} (av_src av_dst : List α) (tile : Nat) (d : α)
    (hs : tile * TS + TS ≤ av_src.length) (hd : tile < av_dst.length) :
    tile_kernel av_src av_dst tile = .ok (av_dst.set tile (av_src.getD (tile * TS) d)) := by
  have hpos := TS_pos
  have hlt : tile * TS < av_src.length := by omega
  unfold tile_kernel
  rw [stage_tile_ok av_src tile TS hs]
  have h0 : ((av_src.drop (tile * TS)).take TS)[0]? = some (av_src.getD (tile * TS) d) := by
    rw [List.getElem?_take_of_lt hpos, List.getElem?_drop, List.getD_eq_getElem?_getD]
    simp [List.getElem?_eq_getElem hlt]
  simp only [read, h0]
  exact write_ok av_dst tile _ hd

theorem run_tiles_ok {α : Type} (av_src av_dst : List α) (d : α) (n : Nat)
    (hs : n * TS ≤ av_src.length) (hd : n ≤ av_dst.length) :
    run_tiles av_src n av_dst
      = .ok ((List.range n).map (fun t => av_src.getD (t * TS) d) ++ av_dst.drop n) := by
  induction n with
  | zero => simp [run_tiles]
  | succ n ih =>
    have hs1 : n * TS + TS ≤ av_src.length := by
      have : (n + 1) * TS = n * TS + TS := by ring
      omega
    have hn : n < av_dst.length := by omega
    rw [run_tiles, ih (by omega) (by omega)]
    simp only []
    rw [tile_kernel_ok av_src _ n d hs1 (by simp; omega)]
    congr 1
    rw [List.set_append, if_neg (by simp), List.range_succ, List.map_append, List.append_assoc]
    congr 1
    simp only [List.length_map, List.length_range, Nat.sub_self, List.map_cons, List.map_nil,
      List.singleton_append]
    rw [List.drop_eq_getElem_cons hn, List.set_cons_zero]

theorem run_tiles_length {α : Type} (av_src av_dst d1 : List α) (n : Nat)
    (hs : n * TS ≤ av_src.length) (hd : n ≤ av_dst.length)
    (h : run_tiles av_src n av_dst = .ok d1) : d1.length = av_dst.length := by
  cases av_src with
  | nil =>
    have hn : n = 0 := by
      have := TS_pos
      simp only [List.length_nil, Nat.le_zero, Nat.mul_eq_zero] at hs
      omega
    subst hn
    simp only [run_tiles, Except.ok.injEq] at h
    rw [← h]
  | cons a l =>
    rw [run_tiles_ok (a :: l) av_dst a n hs hd, Except.ok.injEq] at h
    rw [← h]
    simp only [List.length_append, List.length_map, List.length_range, List.length_drop]
    omega

theorem reduction_pass_ok {α : Type} (st : LoopState α) (d : α)
    (hs : st.element_count ≤ st.av_src.length)
    (hd : st.element_count / TS ≤ st.av_dst.length) :
    reduction_pass st
      = .ok { element_count := st.element_count / TS
              av_src := (List.range (st.element_count / TS)).map
                          (fun t => st.av_src.getD (t * TS) d)
                        ++ st.av_dst.drop (st.element_count / TS)
              av_dst := st.av_src
              trace := st.trace ++ [st.element_count] } := by
  have h1 : st.element_count / TS * TS ≤ st.av_src.length :=
    le_trans (Nat.div_mul_le_self _ _) hs
  unfold reduction_pass
  rw [run_tiles_ok st.av_src st.av_dst d _ h1 hd]

theorem take_eq_map_getD {α : Type} (l : List α) (d : α) (m : Nat) (h : m ≤ l.length) :
    l.take m = (List.range m).map (fun j => l.getD j d) := by
  apply List.ext_getElem
  · simp [h]
  · intro i h1 h2
    simp only [List.length_take, lt_min_iff] at h1
    simp [List.getD_eq_getElem?_getD, List.getElem?_eq_getElem h1.2]

theorem pow_mul_mod_TS (k m : Nat) : (TS ^ (k + 1) * m) % TS = 0 := by
  rw [pow_succ, Nat.mul_comm (TS ^ k) TS, Nat.mul_assoc]
  exact Nat.mul_mod_right _ _

theorem pow_mul_div_TS (k m : Nat) : (TS ^ (k + 1) * m) / TS = TS ^ k * m := by
  rw [pow_succ, Nat.mul_comm (TS ^ k) TS, Nat.mul_assoc]
  exact Nat.mul_div_cancel_left _ TS_pos

/-- Closed form of the whole loop from a state whose length is `TS ^ k * m` with
`m` not divisible by `TS`: `k` passes run, the length ends at `m`, and the
surviving values are those at the positions `j * TS ^ k` of the starting buffer. -/
theorem reduce_loop_ok {α : Type} (d : α) (m : Nat) (hm : m % TS ≠ 0) :
    ∀ (k fuel : Nat) (st : LoopState α), k ≤ fuel →
      st.element_count = TS ^ k * m →
      st.element_count ≤ st.av_src.length →
      st.element_count / TS ≤ st.av_dst.length →
      ∃ st1, reduce_loop fuel st = .ok st1 ∧ st1.element_count = m ∧
        st1.trace = st.trace ++ (List.range k).map (fun i => TS ^ (k - i) * m) ∧
        m ≤ st1.av_src.length ∧
        st1.av_src.take m = (List.range m).map (fun j => st.av_src.getD (j * TS ^ k) d) := by
  intro k
  induction k with
  | zero =>
    intro fuel st _ hL hs _
    simp only [pow_zero, Nat.one_mul] at hL
    refine ⟨st, ?_, hL, by simp, hL ▸ hs, ?_⟩
    · unfold reduce_loop
      rw [if_neg (by rw [hL]; exact hm)]
    · simp only [pow_zero, Nat.mul_one]
      exact take_eq_map_getD _ d m (hL ▸ hs)
  | succ k ih =>
    intro fuel st hfuel hL hs hd
    obtain ⟨f, rfl⟩ : ∃ f, fuel = f + 1 := ⟨fuel - 1, by omega⟩
    have hmod : st.element_count % TS = 0 := by rw [hL]; exact pow_mul_mod_TS k m
    have hdiv : st.element_count / TS = TS ^ k * m := by rw [hL]; exact pow_mul_div_TS k m
    have hle : TS ^ k * m ≤ st.element_count := by rw [← hdiv]; exact Nat.div_le_self _ _
    unfold reduce_loop
    rw [if_pos hmod]
    simp only []
    rw [reduction_pass_ok st d hs hd]
    obtain ⟨st1, hrun, hcnt, htr, hlen, hval⟩ := ih f
      { element_count := st.element_count / TS
        av_src := (List.range (st.element_count / TS)).map
                    (fun t => st.av_src.getD (t * TS) d)
                  ++ st.av_dst.drop (st.element_count / TS)
        av_dst := st.av_src
        trace := st.trace ++ [st.element_count] }
      (by omega) hdiv
      (by simp only [List.length_append, List.length_map, List.length_range, List.length_drop]
          omega)
      (le_trans (Nat.div_le_self _ _) (le_trans (Nat.div_le_self _ _) hs))
    refine ⟨st1, hrun, hcnt, ?_, hlen, ?_⟩
    · rw [htr, List.append_assoc, List.range_succ_eq_map, hL]
      simp only [List.singleton_append, List.map_cons, List.map_map, Nat.sub_zero]
      congr 2
      apply List.map_congr_left
      intro i _
      simp only [Function.comp_apply, Nat.succ_eq_add_one, Nat.add_sub_add_right]
    · rw [hval]
      apply List.map_congr_left
      intro j hj
      have hj1 : j < m := List.mem_range.mp hj
      have hidx : j * TS ^ k < st.element_count / TS := by
        rw [hdiv, Nat.mul_comm]
        exact Nat.mul_lt_mul_of_pos_left hj1 (Nat.pow_pos TS_pos)
      rw [List.getD_eq_getElem?_getD, List.getElem?_append_left (by simpa using hidx)]
      simp only [List.getElem?_map]
      rw [List.getElem?_range hidx]
      simp only [Option.map_some', Option.getD_some]
      congr 1
      rw [pow_succ, Nat.mul_assoc]

theorem setup_src_length {α : Type} (N : Nat) (source : List α) (junk : α)
    (hlen : source.length = N) : (setup N source junk).element_count
      ≤ (setup N source junk).av_src.length := by
  simp [setup, hlen]

theorem setup_dst_length {α : Type} (N : Nat) (source : List α) (junk : α) :
    (setup N source junk).element_count / TS ≤ (setup N source junk).av_dst.length := by
  simp only [setup, List.length_replicate]
  split <;> omega

/-- Every positive length factors as `TS ^ k * m` with `m` not divisible by `TS`. -/
theorem exists_pow_mul (N : Nat) (hN : 1 ≤ N) : ∃ k m, N = TS ^ k * m ∧ m % TS ≠ 0 := by
  induction N using Nat.strong_induction_on with
  | _ N ih =>
    by_cases hmod : N % TS = 0
    · have hlt : N / TS < N := Nat.div_lt_self (by omega) (by decide)
      have hpos : 1 ≤ N / TS := by
        have h2 : TS ≤ N := Nat.le_of_dvd (by omega) (Nat.dvd_of_mod_eq_zero hmod)
        exact (Nat.one_le_div_iff TS_pos).mpr h2
      obtain ⟨k, m, hkm, hm⟩ := ih (N / TS) hlt hpos
      refine ⟨k + 1, m, ?_, hm⟩
      have h3 : N = TS * (N / TS) := (Nat.mul_div_cancel' (Nat.dvd_of_mod_eq_zero hmod)).symm
      rw [h3, hkm, pow_succ]
      ring
    · exact ⟨0, N, by simp, hmod⟩

/-- Shape of a run on a source of length `TS ^ k * m`: with fuel for `k` passes
the loop ends in a state that ran `k` passes and holds length `m`, and the host
vector has `m` elements. -/
theorem run_shape {α : Type} (k m fuel : Nat) (source : List α) (junk : α)
    (hm : m % TS ≠ 0) (hlen : source.length = TS ^ k * m) (hfuel : k ≤ fuel) :
    ∃ st result, reduce_loop fuel (setup (TS ^ k * m) source junk) = .ok st ∧
      st.passes = k ∧ st.element_count = m ∧
      st.trace = (List.range k).map (fun i => TS ^ (k - i) * m) ∧
      host_result fuel (TS ^ k * m) source junk = .ok result ∧ result.length = m := by
  obtain ⟨st, hrun, hcnt, htr, hl, _⟩ := reduce_loop_ok junk m hm k fuel
    (setup (TS ^ k * m) source junk) hfuel rfl
    (setup_src_length _ source junk hlen) (setup_dst_length _ source junk)
  have htr1 : st.trace = (List.range k).map (fun i => TS ^ (k - i) * m) := by
    rw [htr]; simp [setup]
  refine ⟨st, st.av_src.take m, hrun, ?_, hcnt, htr1, ?_, ?_⟩
  · simp [LoopState.passes, htr1]
  · unfold host_result
    rw [hrun]
    simp only [section_copy, hcnt, if_pos hl]
  · simp [hl]

/-- Value of a run on a source of length `TS ^ k * m`: the host sums the source
values found at the positions `j * TS ^ k`, `j < m`. -/
theorem vector_sum_amp_tiled_eq {α : Type} [Add α] [Zero α] (k m fuel : Nat)
    (source : List α) (junk : α)
    (hm : m % TS ≠ 0) (hlen : source.length = TS ^ k * m) (hfuel : k ≤ fuel) :
    vector_sum_amp_tiled fuel (TS ^ k * m) source junk
      = .ok (accumulate ((List.range m).map (fun j => source.getD (j * TS ^ k) junk))) := by
  obtain ⟨st, hrun, hcnt, _, hl, hval⟩ := reduce_loop_ok junk m hm k fuel
    (setup (TS ^ k * m) source junk) hfuel rfl
    (setup_src_length _ source junk hlen) (setup_dst_length _ source junk)
  unfold vector_sum_amp_tiled host_result
  rw [hrun]
  simp only [section_copy, hcnt, if_pos hl]
  rw [hval]
  simp only [setup, ← hlen, List.take_length]

theorem reduce_loop_stop {α : Type} (fuel : Nat) (st : LoopState α)
    (h : st.element_count % TS ≠ 0) : reduce_loop fuel st = .ok st := by
  unfold reduce_loop
  rw [if_neg h]

theorem host_result_zero_pass {α : Type} (N fuel : Nat) (source : List α) (junk : α)
    (hmod : N % TS ≠ 0) (hlen : source.length = N) :
    host_result fuel N source junk = .ok source := by
  subst hlen
  unfold host_result
  rw [reduce_loop_stop fuel _ (by simpa [setup] using hmod)]
  simp [section_copy, setup]

theorem vector_sum_amp_tiled_zero_pass {α : Type} [Add α] [Zero α] (N fuel : Nat)
    (source : List α) (junk : α) (hmod : N % TS ≠ 0) (hlen : source.length = N) :
    vector_sum_amp_tiled fuel N source junk = .ok (accumulate source) := by
  unfold vector_sum_amp_tiled
  rw [host_result_zero_pass N fuel source junk hmod hlen]

theorem reduce_loop_mono {α : Type} (n : Nat) :
    ∀ (fuel : Nat) (st r : LoopState α), reduce_loop fuel st = .ok r →
      reduce_loop (fuel + n) st = .ok r := by
  intro fuel
  induction fuel with
  | zero =>
    intro st r h
    unfold reduce_loop at h
    by_cases hc : st.element_count % TS = 0
    · rw [if_pos hc] at h
      simp at h
    · rw [if_neg hc] at h
      rw [reduce_loop_stop _ _ hc]
      exact h
  | succ f ih =>
    intro st r h
    by_cases hc : st.element_count % TS = 0
    · have e : f + 1 + n = (f + n) + 1 := by omega
      rw [e]
      unfold reduce_loop at h ⊢
      rw [if_pos hc] at h ⊢
      simp only [] at h ⊢
      cases hp : reduction_pass st with
      | error e1 => rw [hp] at h; simp at h
      | ok st1 =>
        rw [hp] at h
        simp only [] at h ⊢
        exact ih st1 r h
    · rw [reduce_loop_stop _ _ hc] at h
      rw [reduce_loop_stop _ _ hc]
      exact h

/-- The lengths seen by a run from `TS ^ k * m` form a chain in which each length
is the previous one divided by `TS` and strictly smaller. -/
theorem lengths_chain (k m : Nat) (hm : 1 ≤ m) :
    List.Chain' (fun L L1 => L1 = L / TS ∧ L1 < L)
      ((List.range k).map (fun i => TS ^ (k - i) * m) ++ [m]) := by
  have e : (List.range k).map (fun i => TS ^ (k - i) * m) ++ [m]
      = (List.range (k + 1)).map (fun i => TS ^ (k - i) * m) := by
    rw [List.range_succ, List.map_append]
    simp
  rw [e, List.chain'_map, List.chain'_range_succ]
  intro i hi
  have h1 : k - i = (k - (i + 1)) + 1 := by omega
  constructor
  · rw [h1, pow_mul_div_TS]
  · rw [h1, pow_succ, Nat.mul_assoc]
    have hp : 0 < TS ^ (k - (i + 1)) := Nat.pow_pos TS_pos
    have hpm : 0 < TS ^ (k - (i + 1)) * (TS * m) := Nat.mul_pos hp (Nat.mul_pos TS_pos hm)
    have hlt : m < TS * m := by
      have h32 : TS * m = 32 * m := rfl
      omega
    exact Nat.mul_lt_mul_of_pos_left hlt hp

/-! ## Claims about the reduction -/

/-- C1 (evaluation at the failing input).  On 32 values all equal to one, with
fuel for at least one pass, `vector_sum_amp_tiled` returns `1`, the first value
alone, while the ordinary sum of the 32 inputs is `32`. -/
theorem vector_sum_amp_tiled_ones_32 (fuel : Nat) :
    vector_sum_amp_tiled (fuel + 1) 32 (List.replicate 32 (1 : ℚ)) 0 = .ok 1 ∧
      (List.replicate 32 (1 : ℚ)).sum = 32 := by
  constructor
  · have h := vector_sum_amp_tiled_eq 1 1 (fuel + 1) (List.replicate 32 (1 : ℚ)) 0
      (by decide) (by simp [TS]) (by omega)
    have h32 : TS ^ 1 * 1 = 32 := by decide
    rw [h32] at h
    rw [h]
    simp [accumulate, List.range_succ]
  · rw [List.sum_replicate]
    norm_num

/-- C2 (evaluation at the failing input).  One pass over a sequence of length 32
holding the values 1, 2, .., 32 yields a sequence of length `32 / TS = 1` whose
only element is `1`, the first value of tile 0, not the tile sum `528`. -/
theorem reduction_pass_tile_first (junk : ℚ) :
    reduction_pass
        { element_count := 32
          av_src := (List.range 32).map (fun (i : Nat) => ((i : ℚ) + 1))
          av_dst := [junk]
          trace := [] }
      = .ok { element_count := 1
              av_src := [1]
              av_dst := (List.range 32).map (fun (i : Nat) => ((i : ℚ) + 1))
              trace := [32] } ∧
      ((List.range 32).map (fun (i : Nat) => ((i : ℚ) + 1))).sum = 528 := by
  constructor
  · rw [reduction_pass_ok _ junk (by simp) (by simp [TS])]
    have h1 : 32 / TS = 1 := by decide
    simp only [h1]
    simp [List.range_succ]
  · simp [List.range_succ]
    norm_num

/-- C3.  When `N % TS ≠ 0` (so in particular for `N = TS + 1` and for every
`1 ≤ N < TS`) the loop returns its starting state whatever the fuel, having run
zero passes, and `vector_sum_amp_tiled` returns the left-to-right accumulation
from `0` of the `N` source values in order. -/
theorem zero_passes_when_not_divisible {α : Type} [Add α] [Zero α] (N fuel : Nat)
    (source : List α) (junk : α) (hN : 1 ≤ N) (hmod : N % TS ≠ 0)
    (hlen : source.length = N) :
    (reduce_loop fuel (setup N source junk) = .ok (setup N source junk) ∧
      (setup N source junk).passes = 0) ∧
    vector_sum_amp_tiled fuel N source junk
      = .ok (source.foldl (fun acc x => acc + x) 0) ∧
    (TS + 1) % TS ≠ 0 ∧ (∀ n, 1 ≤ n → n < TS → n % TS ≠ 0) := by
  have _ := hN
  refine ⟨⟨reduce_loop_stop fuel _ (by simpa [setup] using hmod), rfl⟩, ?_, by decide, ?_⟩
  · exact vector_sum_amp_tiled_zero_pass N fuel source junk hmod hlen
  · intro n h1 h2
    rw [Nat.mod_eq_of_lt h2]
    omega

theorem zero_passes_when_not_divisible_witness :
    vector_sum_amp_tiled 0 33 (List.replicate 33 (1 : ℚ)) 0
      = .ok ((List.replicate 33 (1 : ℚ)).foldl (fun acc x => acc + x) 0) :=
  (zero_passes_when_not_divisible 33 0 (List.replicate 33 (1 : ℚ)) 0
    (by decide) (by decide) (by simp)).2.1

/-- C4.  On a source of length `TS ^ k * m` with `m ≥ 1` not divisible by `TS`,
and fuel for `k` passes, the loop runs exactly `k` passes and the vector handed
to the host summation has length `m`.  In particular length `TS` gives one pass
and a host vector of length 1, and length `2 ^ 20` gives four passes and a host
vector of length 1. -/
theorem pass_count {α : Type} (k m fuel : Nat) (source : List α) (junk : α)
    (hm1 : 1 ≤ m) (hm : m % TS ≠ 0) (hlen : source.length = TS ^ k * m) (hfuel : k ≤ fuel) :
    (∃ st result, reduce_loop fuel (setup (TS ^ k * m) source junk) = .ok st ∧
      st.passes = k ∧ st.element_count = m ∧
      host_result fuel (TS ^ k * m) source junk = .ok result ∧ result.length = m) ∧
    (∀ (src : List α) (f : Nat), src.length = TS → 1 ≤ f →
      ∃ st result, reduce_loop f (setup TS src junk) = .ok st ∧ st.passes = 1 ∧
        host_result f TS src junk = .ok result ∧ result.length = 1) ∧
    (∀ (src : List α) (f : Nat), src.length = 2 ^ 20 → 4 ≤ f →
      ∃ st result, reduce_loop f (setup (2 ^ 20) src junk) = .ok st ∧ st.passes = 4 ∧
        host_result f (2 ^ 20) src junk = .ok result ∧ result.length = 1) := by
  have _ := hm1
  refine ⟨?_, ?_, ?_⟩
  · obtain ⟨st, result, h1, h2, h3, _, h5, h6⟩ := run_shape k m fuel source junk hm hlen hfuel
    exact ⟨st, result, h1, h2, h3, h5, h6⟩
  · intro src f hsrc hf
    have e : TS = TS ^ 1 * 1 := by decide
    obtain ⟨st, result, h1, h2, _, _, h5, h6⟩ :=
      run_shape 1 1 f src junk (by decide) (by rw [hsrc]; exact e) hf
    rw [← e] at h1 h5
    exact ⟨st, result, h1, h2, h5, h6⟩
  · intro src f hsrc hf
    have e : 2 ^ 20 = TS ^ 4 * 1 := by decide
    obtain ⟨st, result, h1, h2, _, _, h5, h6⟩ :=
      run_shape 4 1 f src junk (by decide) (by rw [hsrc]; exact e) hf
    rw [← e] at h1 h5
    exact ⟨st, result, h1, h2, h5, h6⟩

theorem pass_count_witness :
    ∃ st result, reduce_loop 2 (setup (TS ^ 2 * 3) (List.replicate 3072 (1 : ℚ)) 0) = .ok st ∧
      st.passes = 2 ∧ st.element_count = 3 ∧
      host_result 2 (TS ^ 2 * 3) (List.replicate 3072 (1 : ℚ)) 0 = .ok result ∧
      result.length = 3 :=
  (pass_count 2 3 2 (List.replicate 3072 (1 : ℚ)) 0 (by decide) (by decide)
    (by rw [List.length_replicate]; decide) (by decide)).1

/-- C5.  For every `N ≥ 1` the loop terminates: there is one final state that
every run with fuel at least its pass count reaches; the lengths seen by the
run, starting at `N`, each equal the previous one divided by `TS` and are
strictly smaller; and the pass count `p` satisfies `TS ^ p ≤ N`. -/
theorem loop_terminates {α : Type} (N : Nat) (source : List α) (junk : α)
    (hN : 1 ≤ N) (hlen : source.length = N) :
    ∃ st, (∀ fuel, st.passes ≤ fuel → reduce_loop fuel (setup N source junk) = .ok st) ∧
      List.Chain' (fun L L1 => L1 = L / TS ∧ L1 < L) (st.trace ++ [st.element_count]) ∧
      (st.trace ++ [st.element_count]).head? = some N ∧
      TS ^ st.passes ≤ N := by
  obtain ⟨k, m, hkm, hm⟩ := exists_pow_mul N hN
  have hm1 : 1 ≤ m := by
    rcases Nat.eq_zero_or_pos m with h0 | h0
    · rw [h0] at hm; exact absurd (Nat.zero_mod TS) hm
    · exact h0
  subst hkm
  obtain ⟨st, _, hrun, hp, hcnt, htr, _, _⟩ := run_shape k m k source junk hm hlen le_rfl
  refine ⟨st, ?_, ?_, ?_, ?_⟩
  · intro fuel hf
    obtain ⟨n, rfl⟩ : ∃ n, fuel = k + n := ⟨fuel - k, by omega⟩
    exact reduce_loop_mono n k _ st hrun
  · rw [htr, hcnt]
    exact lengths_chain k m hm1
  · rw [htr, hcnt]
    cases k with
    | zero => simp
    | succ k => simp [List.range_succ_eq_map]
  · rw [hp]
    exact Nat.le_mul_of_pos_right _ hm1

theorem loop_terminates_witness :
    ∃ st, (∀ fuel, st.passes ≤ fuel →
        reduce_loop fuel (setup 64 (List.replicate 64 (1 : ℚ)) 0) = .ok st) ∧
      List.Chain' (fun L L1 => L1 = L / TS ∧ L1 < L) (st.trace ++ [st.element_count]) ∧
      (st.trace ++ [st.element_count]).head? = some 64 ∧
      TS ^ st.passes ≤ 64 :=
  loop_terminates 64 (List.replicate 64 (1 : ℚ)) 0 (by decide) (by simp)

/-- C6 (evaluation at the failing input).  On 33 values all equal to one,
`vector_sum_amp_tiled` returns `33`; on the first `33 / TS * TS = 32` of them it
returns `1`; the plain sum of the one remaining value is `1`; and `33 ≠ 1 + 1`. -/
theorem remainder_split_ones_33 (fuel : Nat) :
    vector_sum_amp_tiled (fuel + 1) 33 (List.replicate 33 (1 : ℚ)) 0 = .ok 33 ∧
      vector_sum_amp_tiled (fuel + 1) (33 / TS * TS)
        ((List.replicate 33 (1 : ℚ)).take (33 / TS * TS)) 0 = .ok 1 ∧
      ((List.replicate 33 (1 : ℚ)).drop (33 / TS * TS)).sum = 1 ∧
      (33 : ℚ) ≠ 1 + 1 := by
  have e : 33 / TS * TS = 32 := by decide
  refine ⟨?_, ?_, ?_, by norm_num⟩
  · rw [vector_sum_amp_tiled_zero_pass 33 (fuel + 1) _ 0 (by decide) (by simp)]
    simp [accumulate]
    norm_num
  · rw [e]
    have h := vector_sum_amp_tiled_eq 1 1 (fuel + 1) ((List.replicate 33 (1 : ℚ)).take 32) 0
      (by decide) (by simp [TS]) (by omega)
    have h32 : TS ^ 1 * 1 = 32 := by decide
    rw [h32] at h
    rw [h]
    simp [accumulate, List.range_succ]
  · rw [e]
    simp

/-! ## The loop guard, the strided result and buffer bounds -/

/-- C17.  On a source of length `TS ^ k * m` with `m ≥ 1` not divisible by `TS`
and fuel for `k` passes, `vector_sum_amp_tiled` returns the left-to-right sum
from `0` of the values `source[j * TS ^ k]`, `j = 0 .. m-1`, all of which are
positions inside the source; and every pass taken from an in-bounds state
leaves as its output the input values at the positions `t * TS`. -/
theorem strided_sum {α : Type} [Add α] [Zero α] (k m fuel : Nat) (source : List α) (junk : α)
    (hm1 : 1 ≤ m) (hm : m % TS ≠ 0) (hlen : source.length = TS ^ k * m) (hfuel : k ≤ fuel) :
    vector_sum_amp_tiled fuel (TS ^ k * m) source junk
      = .ok (((List.range m).map (fun j => source.getD (j * TS ^ k) junk)).foldl
          (fun acc x => acc + x) 0) ∧
    (∀ j, j < m → j * TS ^ k < source.length) ∧
    (∀ (st : LoopState α), st.element_count % TS = 0 →
      st.element_count ≤ st.av_src.length → st.element_count / TS ≤ st.av_dst.length →
      ∃ st1, reduction_pass st = .ok st1 ∧ st1.element_count = st.element_count / TS ∧
        st1.av_src.take st1.element_count
          = (List.range (st.element_count / TS)).map
              (fun t => st.av_src.getD (t * TS) junk)) := by
  have _ := hm1
  refine ⟨vector_sum_amp_tiled_eq k m fuel source junk hm hlen hfuel, ?_, ?_⟩
  · intro j hj
    rw [hlen, Nat.mul_comm]
    exact Nat.mul_lt_mul_of_pos_left hj (Nat.pow_pos TS_pos)
  · intro st _ hs hd
    refine ⟨_, reduction_pass_ok st junk hs hd, rfl, ?_⟩
    simp only []
    rw [List.take_append_eq_append_take]
    simp

theorem strided_sum_witness :
    vector_sum_amp_tiled 2 (TS ^ 2 * 3) (List.replicate 3072 (1 : ℚ)) 0
      = .ok (((List.range 3).map
          (fun j => (List.replicate 3072 (1 : ℚ)).getD (j * TS ^ 2) 0)).foldl
            (fun acc x => acc + x) 0) :=
  (strided_sum 2 3 2 (List.replicate 3072 (1 : ℚ)) 0 (by decide) (by decide)
    (by rw [List.length_replicate]; decide) (by decide)).1

theorem reachable_inv {α : Type} (N : Nat) (source : List α) (junk : α)
    (hlen : source.length = N) (st : LoopState α) (hr : Reachable N source junk st) :
    st.element_count ≤ st.av_src.length ∧ st.element_count / TS ≤ st.av_dst.length ∧
      ((st.av_src.length = N ∧ st.av_dst.length = arr_2_extent N) ∨
        (st.av_src.length = arr_2_extent N ∧ st.av_dst.length = N)) := by
  induction hr with
  | start =>
    refine ⟨setup_src_length N source junk hlen, setup_dst_length N source junk, Or.inl ⟨?_, ?_⟩⟩
    · simp [setup, hlen]
    · simp [setup, arr_2_extent]
  | pass st st1 _ _ hpass ih =>
    obtain ⟨hs, hd, hext⟩ := ih
    rw [reduction_pass_ok st junk hs hd, Except.ok.injEq] at hpass
    subst hpass
    have hlen1 : ((List.range (st.element_count / TS)).map
        (fun t => st.av_src.getD (t * TS) junk)
          ++ st.av_dst.drop (st.element_count / TS)).length = st.av_dst.length := by
      simp only [List.length_append, List.length_map, List.length_range, List.length_drop]
      omega
    refine ⟨?_, ?_, ?_⟩
    · simp only []
      rw [hlen1]
      exact hd
    · exact le_trans (Nat.div_le_self _ _) (le_trans (Nat.div_le_self _ _) hs)
    · simp only []
      rw [hlen1]
      rcases hext with ⟨h1, h2⟩ | ⟨h1, h2⟩
      · exact Or.inr ⟨h2, h1⟩
      · exact Or.inl ⟨h2, h1⟩

theorem reduce_loop_in_bounds {α : Type} (junk : α) :
    ∀ (fuel : Nat) (st : LoopState α), st.element_count ≤ st.av_src.length →
      st.element_count / TS ≤ st.av_dst.length →
      reduce_loop fuel st ≠ .error .out_of_bounds ∧
        ∀ st1, reduce_loop fuel st = .ok st1 → st1.element_count ≤ st1.av_src.length := by
  intro fuel
  induction fuel with
  | zero =>
    intro st hs _
    unfold reduce_loop
    by_cases hc : st.element_count % TS = 0
    · rw [if_pos hc]
      simp
    · rw [if_neg hc]
      refine ⟨by simp, ?_⟩
      intro st1 h
      rw [Except.ok.injEq] at h
      rw [← h]
      exact hs
  | succ f ih =>
    intro st hs hd
    unfold reduce_loop
    by_cases hc : st.element_count % TS = 0
    · rw [if_pos hc]
      simp only []
      rw [reduction_pass_ok st junk hs hd]
      simp only []
      apply ih
      · simp only [List.length_append, List.length_map, List.length_range, List.length_drop]
        omega
      · exact le_trans (Nat.div_le_self _ _) (le_trans (Nat.div_le_self _ _) hs)
    · rw [if_neg hc]
      refine ⟨by simp, ?_⟩
      intro st1 h
      rw [Except.ok.injEq] at h
      rw [← h]
      exact hs

/-- C18.  For `N ≥ 1` and a source of `N` values, in every loop state the call
passes through the two views are `arr_1` (extent `N`) and `arr_2` (extent
`max (N / TS) 1`) in one order or the other; every read `av_src[g]` with
`g < L` and every write `av_dst[t]` with `t < L / TS` succeeds, a pass taken
when `L % TS == 0` completes, and `av_src.section(0, L)` is inside the view.
Whatever the fuel, the run never ends with an out-of-bounds access. -/
theorem buffers_in_bounds {α : Type} (N : Nat) (source : List α) (junk : α)
    (hN : 1 ≤ N) (hlen : source.length = N) :
    (∀ st, Reachable N source junk st →
      ((st.av_src.length = N ∧ st.av_dst.length = max (N / TS) 1) ∨
        (st.av_src.length = max (N / TS) 1 ∧ st.av_dst.length = N)) ∧
      (∀ g, g < st.element_count → ∃ v, read st.av_src g = .ok v) ∧
      (∀ t v, t < st.element_count / TS → ∃ d, write st.av_dst t v = .ok d) ∧
      (st.element_count % TS = 0 → ∃ st1, reduction_pass st = .ok st1) ∧
      (∃ result, section_copy st.av_src st.element_count = .ok result)) ∧
    (∀ fuel, host_result fuel N source junk ≠ .error .out_of_bounds) := by
  have _ := hN
  have hext : arr_2_extent N = max (N / TS) 1 := by
    unfold arr_2_extent
    generalize N / TS = q
    split <;> omega
  constructor
  · intro st hr
    obtain ⟨hs, hd, hlens⟩ := reachable_inv N source junk hlen st hr
    rw [hext] at hlens
    refine ⟨hlens, ?_, ?_, ?_, ?_⟩
    · intro g hg
      exact ⟨_, read_ok st.av_src g junk (by omega)⟩
    · intro t v ht
      exact ⟨_, write_ok st.av_dst t v (by omega)⟩
    · intro _
      exact ⟨_, reduction_pass_ok st junk hs hd⟩
    · exact ⟨st.av_src.take st.element_count, by simp only [section_copy, if_pos hs]⟩
  · intro fuel
    obtain ⟨hne, hfin⟩ := reduce_loop_in_bounds junk fuel (setup N source junk)
      (setup_src_length N source junk hlen) (setup_dst_length N source junk)
    unfold host_result
    cases hrun : reduce_loop fuel (setup N source junk) with
    | error e =>
      simp only []
      intro h
      rw [Except.error.injEq] at h
      rw [h] at hrun
      exact hne hrun
    | ok st1 =>
      simp only [section_copy, if_pos (hfin st1 hrun)]
      simp

theorem buffers_in_bounds_witness :
    host_result 1 64 (List.replicate 64 (1 : ℚ)) 0 ≠ .error .out_of_bounds ∧
      ∃ result, section_copy (setup 64 (List.replicate 64 (1 : ℚ)) 0).av_src
        (setup 64 (List.replicate 64 (1 : ℚ)) 0).element_count = .ok result :=
  ⟨(buffers_in_bounds 64 (List.replicate 64 (1 : ℚ)) 0 (by decide) (by simp)).2 1,
   ((buffers_in_bounds 64 (List.replicate 64 (1 : ℚ)) 0 (by decide) (by simp)).1 _
      Reachable.start).2.2.2.2⟩

/-! ## Thread schedules within a tile -/

theorem stage_in_order_ok {α : Type} (av_src : List α) (tile : Nat)
    (hs : tile * TS + TS ≤ av_src.length) :
    ∀ (order : List Nat) (td : List α), (∀ l ∈ order, l < TS) → td.length = TS →
      ∃ td1, stage_in_order av_src tile order td = .ok td1 ∧ td1.length = TS ∧
        ∀ i, i < TS →
          td1[i]? = if i ∈ order then av_src[tile * TS + i]? else td[i]? := by
  intro order
  induction order with
  | nil =>
    intro td _ hlen
    exact ⟨td, rfl, hlen, fun i _ => by simp⟩
  | cons l rest ih =>
    intro td hmem hlen
    have hl : l < TS := hmem l (List.mem_cons_self _ _)
    have hlt : tile * TS + l < av_src.length := by omega
    obtain ⟨td1, hrun, hlen1, hval⟩ := ih (td.set l (av_src[tile * TS + l]))
      (fun x hx => hmem x (List.mem_cons_of_mem _ hx)) (by simp [hlen])
    refine ⟨td1, ?_, hlen1, ?_⟩
    · rw [stage_in_order]
      simp only [read, List.getElem?_eq_getElem hlt]
      rw [write_ok td l _ (by omega)]
      exact hrun
    · intro i hi
      rw [hval i hi]
      by_cases hir : i ∈ rest
      · simp [hir]
      · by_cases hil : i = l
        · subst hil
          simp [hir, List.getElem?_eq_getElem hlt, hlen, hi]
        · have hne : ¬ l = i := fun h => hil h.symm
          simp [hir, hil, List.getElem?_set, hne]

theorem stage_in_order_perm {α : Type} (av_src : List α) (tile : Nat) (junk : α)
    (order : List Nat) (hperm : order.Perm (List.range TS))
    (hs : tile * TS + TS ≤ av_src.length) :
    stage_in_order av_src tile order (List.replicate TS junk)
      = .ok ((av_src.drop (tile * TS)).take TS) := by
  have hmem : ∀ l, l ∈ order ↔ l < TS := fun l => by
    rw [hperm.mem_iff, List.mem_range]
  obtain ⟨td1, hrun, hlen1, hval⟩ := stage_in_order_ok av_src tile hs order
    (List.replicate TS junk) (fun l hl => (hmem l).mp hl) (by simp)
  rw [hrun]
  congr 1
  apply List.ext_getElem?
  intro i
  by_cases hi : i < TS
  · rw [hval i hi, if_pos ((hmem i).mpr hi), List.getElem?_take_of_lt hi, List.getElem?_drop]
  · have h1 : td1[i]? = none := List.getElem?_eq_none (by omega)
    have h2 : ((av_src.drop (tile * TS)).take TS)[i]? = none :=
      List.getElem?_eq_none (by simp; omega)
    rw [h1, h2]

/-- C13.  For any tile whose accesses are in bounds and any order in which the
`TS` threads of the tile reach the barrier (a permutation of the local
indices), once every thread has written its own scratch slot the scratch array
holds `av_src[tile*TS + l]` in slot `l`, and the store made after the barrier
gives the same buffer as the in-order kernel: `av_dst` with slot `tile` set to
the staged value of slot 0.  The outcome is the same for any two orders and
does not depend on the initial scratch contents. -/
theorem tile_result_schedule_free {α : Type} (av_src av_dst : List α) (tile : Nat)
    (order : List Nat) (junk : α) (hperm : order.Perm (List.range TS))
    (hs : tile * TS + TS ≤ av_src.length) (hd : tile < av_dst.length) :
    stage_in_order av_src tile order (List.replicate TS junk)
      = .ok ((av_src.drop (tile * TS)).take TS) ∧
    tile_kernel_in_order av_src av_dst tile order junk = tile_kernel av_src av_dst tile ∧
    tile_kernel_in_order av_src av_dst tile order junk
      = .ok (av_dst.set tile (av_src.getD (tile * TS) junk)) ∧
    (∀ (order1 : List Nat) (junk1 : α), order1.Perm (List.range TS) →
      tile_kernel_in_order av_src av_dst tile order1 junk1
        = tile_kernel_in_order av_src av_dst tile order junk) := by
  have hstage := stage_in_order_perm av_src tile junk order hperm hs
  have hk : ∀ (o : List Nat) (j : α), o.Perm (List.range TS) →
      tile_kernel_in_order av_src av_dst tile o j = tile_kernel av_src av_dst tile := by
    intro o j ho
    unfold tile_kernel_in_order tile_kernel
    rw [stage_in_order_perm av_src tile j o ho hs, stage_tile_ok av_src tile TS hs]
  refine ⟨hstage, hk order junk hperm, ?_, ?_⟩
  · rw [hk order junk hperm]
    exact tile_kernel_ok av_src av_dst tile junk hs hd
  · intro order1 junk1 h1
    rw [hk order1 junk1 h1, hk order junk hperm]

theorem tile_result_schedule_free_witness :
    tile_kernel_in_order (List.replicate 32 (1 : ℚ)) [0] 0 (List.range TS).reverse 7
      = tile_kernel (List.replicate 32 (1 : ℚ)) [0] 0 :=
  (tile_result_schedule_free (List.replicate 32 (1 : ℚ)) [0] 0 (List.range TS).reverse 7
    (List.reverse_perm _) (by rw [List.length_replicate]; decide) (by decide)).2.1

/-! ## Exceptions of the accelerator runtime -/

theorem reduce_loop_step {α : Type} (f : Nat) (st st2 : LoopState α)
    (hc : st.element_count % TS = 0) (hp : reduction_pass st = .ok st2) :
    reduce_loop (f + 1) st = reduce_loop f st2 := by
  conv_lhs => unfold reduce_loop
  rw [if_pos hc]
  simp only [hp]

theorem reduce_loop_exc_step {α : Type} (throws : Site → Bool) (f : Nat) (st st2 : LoopState α)
    (hc : st.element_count % TS = 0) (ht : throws (.launch st.passes) = false)
    (hp : reduction_pass st = .ok st2) :
    reduce_loop_exc throws (f + 1) st = reduce_loop_exc throws f st2 := by
  conv_lhs => unfold reduce_loop_exc
  rw [if_pos hc]
  simp only [ht, hp]
  simp

theorem reduce_loop_exc_throw {α : Type} (throws : Site → Bool) (f : Nat) (st : LoopState α)
    (hc : st.element_count % TS = 0) (ht : throws (.launch st.passes) = true) :
    reduce_loop_exc throws (f + 1) st = .error .runtime_exception := by
  unfold reduce_loop_exc
  rw [if_pos hc]
  simp only [ht]
  simp

theorem reduce_loop_exc_stop {α : Type} (throws : Site → Bool) (fuel : Nat) (st : LoopState α)
    (hc : st.element_count % TS ≠ 0) : reduce_loop_exc throws fuel st = .ok st := by
  unfold reduce_loop_exc
  rw [if_neg hc]

/-- The loop with exceptions on a state of length `TS ^ k * m`: when no launch
among the next `k` passes raises it ends like the plain loop, and when one of
them raises the loop ends with the exception. -/
theorem reduce_loop_exc_ok {α : Type} (throws : Site → Bool) (d : α) (m : Nat)
    (hm : m % TS ≠ 0) :
    ∀ (k fuel : Nat) (st : LoopState α), k ≤ fuel →
      st.element_count = TS ^ k * m →
      st.element_count ≤ st.av_src.length →
      st.element_count / TS ≤ st.av_dst.length →
      ((∀ p, st.passes ≤ p → p < st.passes + k → throws (.launch p) = false) →
        ∃ st1, reduce_loop fuel st = .ok st1 ∧ reduce_loop_exc throws fuel st = .ok st1) ∧
      ((∃ p, st.passes ≤ p ∧ p < st.passes + k ∧ throws (.launch p) = true) →
        reduce_loop_exc throws fuel st = .error .runtime_exception) := by
  intro k
  induction k with
  | zero =>
    intro fuel st _ hL _ _
    simp only [pow_zero, Nat.one_mul] at hL
    have hc : st.element_count % TS ≠ 0 := by rw [hL]; exact hm
    constructor
    · intro _
      exact ⟨st, reduce_loop_stop fuel st hc, reduce_loop_exc_stop throws fuel st hc⟩
    · rintro ⟨p, h1, h2, _⟩
      omega
  | succ k ih =>
    intro fuel st hfuel hL hs hd
    obtain ⟨f, rfl⟩ : ∃ f, fuel = f + 1 := ⟨fuel - 1, by omega⟩
    have hmod : st.element_count % TS = 0 := by rw [hL]; exact pow_mul_mod_TS k m
    have hdiv : st.element_count / TS = TS ^ k * m := by rw [hL]; exact pow_mul_div_TS k m
    have hpass := reduction_pass_ok st d hs hd
    obtain ⟨iha, ihb⟩ := ih f
      { element_count := st.element_count / TS
        av_src := (List.range (st.element_count / TS)).map
                    (fun t => st.av_src.getD (t * TS) d)
                  ++ st.av_dst.drop (st.element_count / TS)
        av_dst := st.av_src
        trace := st.trace ++ [st.element_count] }
      (by omega) hdiv
      (by simp only [List.length_append, List.length_map, List.length_range, List.length_drop]
          omega)
      (le_trans (Nat.div_le_self _ _) (le_trans (Nat.div_le_self _ _) hs))
    simp only [LoopState.passes, List.length_append, List.length_singleton] at iha ihb
    constructor
    · intro hq
      have h0 : throws (.launch st.passes) = false := hq st.passes le_rfl (by omega)
      obtain ⟨st1, h1, h2⟩ := iha (fun p hp1 hp2 =>
        hq p (by simp only [LoopState.passes]; omega) (by simp only [LoopState.passes]; omega))
      refine ⟨st1, ?_, ?_⟩
      · rw [reduce_loop_step f st _ hmod hpass]
        exact h1
      · rw [reduce_loop_exc_step throws f st _ hmod h0 hpass]
        exact h2
    · rintro ⟨p, hp1, hp2, hp3⟩
      by_cases h0 : throws (.launch st.passes) = true
      · exact reduce_loop_exc_throw throws f st hmod h0
      · have h0f : throws (.launch st.passes) = false := by simpa using h0
        have hne : p ≠ st.passes := by
          intro h
          rw [h] at hp3
          exact h0 hp3
        rw [reduce_loop_exc_step throws f st _ hmod h0f hpass]
        simp only [LoopState.passes] at hp1 hp2 hne
        exact ihb ⟨p, by omega, by omega, hp3⟩

/-- C12 (counterexample).  When the runtime raises during the buffer set-up of
`vector_sum_amp_tiled`, or during `compute_mandelbrot`, the exception leaves the
function. -/
theorem setup_exception_propagates :
    vector_sum_amp_tiled_exc (fun s => decide (s = Site.buffer_setup)) 1 32
        (List.replicate 32 (1 : ℚ)) 0 = Outcome.propagated ∧
    Mandelbrot.compute_mandelbrot_exc true Real.sqrt (fun x : ℝ => x) (fun x : ℝ => x)
        (-2) 1 (9 / 8) (-9 / 8) 0 75 (fun _ _ => 0) = Outcome.propagated := by
  constructor
  · unfold vector_sum_amp_tiled_exc
    simp
  · unfold Mandelbrot.compute_mandelbrot_exc
    simp

/-- C12 (amended).  On a source of length `TS ^ k * m` with fuel for `k` passes:
when the buffer set-up does not raise, no exception leaves
`vector_sum_amp_tiled`; if a kernel launch of one of the `k` passes or the final
copy raises, the exception is caught and the function returns `0`; if nothing
raises it returns the value of the plain run.  When the buffer set-up raises,
the exception leaves the function.  `compute_mandelbrot` has no handler: an
exception raised in it leaves the function, and without one it returns the
grid. -/
theorem exceptions_in_try_caught {α : Type} [Add α] [Zero α] {D F : Type}
    [Add D] [Sub D] [Mul D] [Div D] [NatCast D]
    [LT D] [∀ a b : D, Decidable (a < b)] [OfNat D 2] [Add F] [Mul F] [Zero F]
    (throws : Site → Bool) (k m fuel : Nat) (source : List α) (junk : α)
    (sqrt : F → F) (narrow : D → F) (widen : F → D)
    (left right top bottom : D) (ymin ymax : Int) (image : Mandelbrot.Grid)
    (hm : m % TS ≠ 0) (hlen : source.length = TS ^ k * m) (hfuel : k ≤ fuel) :
    (throws .buffer_setup = false →
      vector_sum_amp_tiled_exc throws fuel (TS ^ k * m) source junk ≠ .propagated ∧
      (((∃ p, p < k ∧ throws (.launch p) = true) ∨ throws .host_copy = true) →
        vector_sum_amp_tiled_exc throws fuel (TS ^ k * m) source junk = .returned 0) ∧
      ((∀ p, p < k → throws (.launch p) = false) → throws .host_copy = false →
        ∃ v, vector_sum_amp_tiled fuel (TS ^ k * m) source junk = .ok v ∧
          vector_sum_amp_tiled_exc throws fuel (TS ^ k * m) source junk = .returned v)) ∧
    (throws .buffer_setup = true →
      vector_sum_amp_tiled_exc throws fuel (TS ^ k * m) source junk = .propagated) ∧
    Mandelbrot.compute_mandelbrot_exc true sqrt narrow widen left right top bottom ymin ymax
        image = .propagated ∧
    Mandelbrot.compute_mandelbrot_exc false sqrt narrow widen left right top bottom ymin ymax
        image
      = .returned
          (Mandelbrot.compute_mandelbrot sqrt narrow widen left right top bottom ymin ymax
            image) := by
  have hs0 := setup_src_length (TS ^ k * m) source junk hlen
  have hd0 := setup_dst_length (TS ^ k * m) source junk
  obtain ⟨hquiet, hraise⟩ := reduce_loop_exc_ok throws junk m hm k fuel
    (setup (TS ^ k * m) source junk) hfuel rfl hs0 hd0
  have hp0 : (setup (TS ^ k * m) source junk).passes = 0 := rfl
  rw [hp0] at hquiet hraise
  -- the two ways the `try` block can raise
  have hlaunch : (∃ p, p < k ∧ throws (.launch p) = true) → throws .buffer_setup = false →
      vector_sum_amp_tiled_exc throws fuel (TS ^ k * m) source junk = .returned 0 := by
    rintro ⟨p, hp, ht⟩ hset
    have hloop := hraise ⟨p, Nat.zero_le _, by omega, ht⟩
    unfold vector_sum_amp_tiled_exc try_block
    rw [hloop]
    simp [hset]
  have hrest : (∀ p, p < k → throws (.launch p) = false) → throws .buffer_setup = false →
      ∃ st1, reduce_loop fuel (setup (TS ^ k * m) source junk) = .ok st1 ∧
        (throws .host_copy = true →
          vector_sum_amp_tiled_exc throws fuel (TS ^ k * m) source junk = .returned 0) ∧
        (throws .host_copy = false →
          vector_sum_amp_tiled fuel (TS ^ k * m) source junk
              = .ok (accumulate (st1.av_src.take st1.element_count)) ∧
            vector_sum_amp_tiled_exc throws fuel (TS ^ k * m) source junk
              = .returned (accumulate (st1.av_src.take st1.element_count))) := by
    intro hq hset
    obtain ⟨st1, h1, h2⟩ := hquiet (fun p _ hp => hq p (by omega))
    have hfin := (reduce_loop_in_bounds junk fuel _ hs0 hd0).2 st1 h1
    refine ⟨st1, h1, ?_, ?_⟩
    · intro hc
      unfold vector_sum_amp_tiled_exc try_block
      rw [h2]
      simp [hset, hc]
    · intro hc
      constructor
      · unfold vector_sum_amp_tiled host_result
        rw [h1]
        simp only [section_copy, if_pos hfin]
      · unfold vector_sum_amp_tiled_exc try_block
        rw [h2]
        simp [hset, hc, section_copy, hfin]
  refine ⟨?_, ?_, ?_, ?_⟩
  · intro hset
    refine ⟨?_, ?_, ?_⟩
    · by_cases hex : ∃ p, p < k ∧ throws (.launch p) = true
      · rw [hlaunch hex hset]
        intro h
        cases h
      · have hq : ∀ p, p < k → throws (.launch p) = false := by
          intro p hp
          by_contra hne
          exact hex ⟨p, hp, by simpa using hne⟩
        obtain ⟨st1, _, hc1, hc2⟩ := hrest hq hset
        by_cases hc : throws .host_copy = true
        · rw [hc1 hc]
          intro h
          cases h
        · rw [(hc2 (by simpa using hc)).2]
          intro h
          cases h
    · rintro (hex | hc)
      · exact hlaunch hex hset
      · by_cases hex : ∃ p, p < k ∧ throws (.launch p) = true
        · exact hlaunch hex hset
        · have hq : ∀ p, p < k → throws (.launch p) = false := by
            intro p hp
            by_contra hne
            exact hex ⟨p, hp, by simpa using hne⟩
          obtain ⟨st1, _, hc1, _⟩ := hrest hq hset
          exact hc1 hc
    · intro hq hc
      obtain ⟨st1, _, _, hc2⟩ := hrest hq hset
      exact ⟨_, (hc2 hc).1, (hc2 hc).2⟩
  · intro hset
    unfold vector_sum_amp_tiled_exc
    simp [hset]
  · unfold Mandelbrot.compute_mandelbrot_exc
    simp
  · unfold Mandelbrot.compute_mandelbrot_exc
    simp

theorem exceptions_in_try_caught_witness :
    vector_sum_amp_tiled_exc (fun s => decide (s = Site.launch 0)) 1 (TS ^ 1 * 1)
        (List.replicate 32 (1 : ℚ)) 0 = Outcome.returned 0 :=
  ((exceptions_in_try_caught (fun s => decide (s = Site.launch 0)) 1 1 1
      (List.replicate 32 (1 : ℚ)) 0 Real.sqrt (fun x : ℝ => x) (fun x : ℝ => x)
      (-2) 1 (9 / 8) (-9 / 8) 0 75 (fun _ _ => 0)
      (by decide) (by rw [List.length_replicate]; decide) (by decide)).1 (by decide)).2.1
    (Or.inl ⟨0, by decide, by decide⟩)

end AmpReduction

namespace Mandelbrot

/-! ## Helper lemmas for the Mandelbrot kernel -/

theorem run_row_apply (body : Nat → Nat → Nat) (h n : Nat) (a : Grid) (i j : Nat) :
    run_row body h n a i j = if i = h ∧ j < n then body h j else a i j := by
  induction n with
  | zero => simp [run_row]
  | succ n ih =>
    simp only [run_row, store, ih]
    by_cases hi : i = h
    · by_cases hj : j = n
      · subst hi; subst hj; simp
      · by_cases hlt : j < n
        · have h2 : j < n + 1 := by omega
          simp [hi, hj, hlt, h2]
        · have h2 : ¬ j < n + 1 := by omega
          simp [hi, hj, hlt, h2]
    · simp [hi]

theorem run_grid_apply (body : Nat → Nat → Nat) (W n : Nat) (a : Grid) (i j : Nat) :
    run_grid body W n a i j = if i < n ∧ j < W then body i j else a i j := by
  induction n with
  | zero => simp [run_grid]
  | succ n ih =>
    simp only [run_grid, run_row_apply, ih]
    by_cases hi : i = n
    · subst hi
      by_cases hj : j < W
      · simp [hj]
      · simp [hj]
    · by_cases hlt : i < n
      · have h2 : i < n + 1 := by omega
        simp [hi, hlt, h2]
      · have h2 : ¬ i < n + 1 := by omega
        simp [hi, hlt, h2]

/-- Inside the extent, the image after `compute_mandelbrot` holds the kernel's
value, whatever it held before. -/
theorem compute_mandelbrot_apply {D F : Type} [Add D] [Sub D] [Mul D] [Div D] [NatCast D]
    [LT D] [∀ a b : D, Decidable (a < b)] [OfNat D 2] [Add F] [Mul F] [Zero F]
    (sqrt : F → F) (narrow : D → F) (widen : F → D)
    (left right top bottom : D) (ymin ymax : Int) (image : Grid) (h w : Nat)
    (hh : h < HEIGHT) (hw : w < WIDTH) :
    compute_mandelbrot sqrt narrow widen left right top bottom ymin ymax image h w
      = mandelbrot_kernel sqrt narrow widen left right top bottom h w := by
  simp only [compute_mandelbrot, run_grid_apply]
  rw [if_pos ⟨hh, hw⟩]

/-- C9.  The grid produced by `compute_mandelbrot` does not depend on `ymin` or
`ymax`: any two row ranges give the same grid, and every cell inside the
`HEIGHT` by `WIDTH` extent holds the kernel's value whatever the range and
whatever the image held before.  This holds whatever the arithmetic is. -/
theorem row_range_ignored {D F : Type} [Add D] [Sub D] [Mul D] [Div D] [NatCast D]
    [LT D] [∀ a b : D, Decidable (a < b)] [OfNat D 2] [Add F] [Mul F] [Zero F]
    (sqrt : F → F) (narrow : D → F) (widen : F → D)
    (left right top bottom : D) (ymin ymax ymin1 ymax1 : Int) (image : Grid) :
    compute_mandelbrot sqrt narrow widen left right top bottom ymin ymax image
      = compute_mandelbrot sqrt narrow widen left right top bottom ymin1 ymax1 image ∧
    (∀ (image1 : Grid) (h w : Nat), h < HEIGHT → w < WIDTH →
      compute_mandelbrot sqrt narrow widen left right top bottom ymin ymax image1 h w
        = mandelbrot_kernel sqrt narrow widen left right top bottom h w) := by
  refine ⟨rfl, ?_⟩
  intro image1 h w hh hw
  exact compute_mandelbrot_apply sqrt narrow widen left right top bottom ymin ymax image1 h w
    hh hw

theorem row_range_ignored_witness :
    compute_mandelbrot Real.sqrt (fun x : ℝ => x) (fun x : ℝ => x) (-2) 1 (9 / 8) (-9 / 8)
        0 75 (fun _ _ => 7) 1199 1919
      = mandelbrot_kernel Real.sqrt (fun x : ℝ => x) (fun x : ℝ => x) (-2) 1 (9 / 8) (-9 / 8)
          1199 1919 :=
  (row_range_ignored Real.sqrt (fun x : ℝ => x) (fun x : ℝ => x) (-2) 1 (9 / 8) (-9 / 8)
    0 75 1125 1200 (fun _ _ => 7)).2 (fun _ _ => 7) 1199 1919 (by decide) (by decide)

/-- C10 (evaluation at the failing input).  For the region left = -2, right = 1,
top = 1.125, bottom = -1.125 and the cell `(h, w) = (0, 1919)`, which lies inside
the grid, the computed point has `c.y = -3957/1600 = -2.473125`, below
`bottom = -1.125`: it is not between `top` and `bottom`. -/
theorem plane_point_below_bottom :
    (0 < HEIGHT ∧ 1919 < WIDTH ∧ (-2 : ℚ) < 1) ∧
      (plane_point (fun x : ℚ => x) (-2 : ℚ) 1 (9 / 8) (-9 / 8) 0 1919).y = -3957 / 1600 ∧
      (plane_point (fun x : ℚ => x) (-2 : ℚ) 1 (9 / 8) (-9 / 8) 0 1919).y < -9 / 8 := by
  refine ⟨⟨by decide, by decide, by norm_num⟩, ?_, ?_⟩
  · simp only [plane_point, HEIGHT]
    norm_num
  · simp only [plane_point, HEIGHT]
    norm_num

/-! ## Image writer, colour packing and the iteration step -/

theorem pixel_eq (v : Nat) : pixel v = [v % 256, v / 256 % 256, v / 65536 % 256] := by
  have h : ∀ x : Nat, x &&& 0xFF = x % 256 := fun x => Nat.and_pow_two_sub_one_eq_mod x 8
  simp only [pixel, h, Nat.shiftRight_eq_div_pow]

theorem write_row_eq (image : Grid) (y n : Nat) :
    write_row image y n
      = (List.range n).flatMap
          (fun x => [image y x % 256, image y x / 256 % 256, image y x / 65536 % 256]) := by
  induction n with
  | zero => simp [write_row]
  | succ n ih =>
    rw [write_row, ih, pixel_eq, List.range_succ, List.flatMap_append]
    simp

theorem write_rows_eq (image : Grid) (n : Nat) :
    write_rows image n
      = (List.range n).flatMap (fun y => (List.range WIDTH).flatMap
          (fun x => [image y x % 256, image y x / 256 % 256, image y x / 65536 % 256])) := by
  induction n with
  | zero => simp [write_rows]
  | succ n ih =>
    rw [write_rows, ih, write_row_eq, List.range_succ, List.flatMap_append]
    simp

theorem write_row_length (image : Grid) (y n : Nat) : (write_row image y n).length = 3 * n := by
  induction n with
  | zero => simp [write_row]
  | succ n ih =>
    rw [write_row, List.length_append, ih]
    simp only [pixel, List.length_cons, List.length_nil]
    omega

theorem write_rows_length (image : Grid) (n : Nat) :
    (write_rows image n).length = 3 * WIDTH * n := by
  induction n with
  | zero => simp [write_rows]
  | succ n ih =>
    rw [write_rows, List.length_append, ih, write_row_length]
    ring

theorem header_eq : header = [0, 0, 2, 0, 0, 0, 0, 0, 0, 0, 0, 0, 128, 7, 176, 4, 24, 0] := by
  decide

/-- C11.  The byte stream of `write_tga` is the 18-byte header
`[0,0,2, 0,0,0,0,0, 0,0, 0,0, 128,7, 176,4, 24, 0]`, whose width and height
bytes are the low and high bytes of `WIDTH` and `HEIGHT` and decode
little-endian to 1920 and 1200, followed for `y = 0 .. HEIGHT-1` and within
each row `x = 0 .. WIDTH-1` by the blue, green and red bytes of `image[y][x]`;
its length is `18 + 3 * WIDTH * HEIGHT`. -/
theorem write_tga_stream (image : Grid) :
    write_tga image
      = [0, 0, 2, 0, 0, 0, 0, 0, 0, 0, 0, 0,
          WIDTH % 256, WIDTH / 256 % 256, HEIGHT % 256, HEIGHT / 256 % 256, 24, 0]
        ++ (List.range HEIGHT).flatMap (fun y => (List.range WIDTH).flatMap
            (fun x => [image y x % 256, image y x / 256 % 256, image y x / 65536 % 256])) ∧
    (WIDTH % 256 + 256 * (WIDTH / 256 % 256) = 1920 ∧
      HEIGHT % 256 + 256 * (HEIGHT / 256 % 256) = 1200) ∧
    (write_tga image).length = 18 + 3 * WIDTH * HEIGHT := by
  refine ⟨?_, ⟨by decide, by decide⟩, ?_⟩
  · rw [write_tga, write_rows_eq, header_eq]
    rfl
  · rw [write_tga, List.length_append, write_rows_length, header_eq]
    rfl

theorem iteration_step_loop {D F : Type} [Add F] [Mul F]
    [LT D] [∀ a b : D, Decidable (a < b)] [OfNat D 2]
    (sqrt : F → F) (widen : F → D) (c z : Complex1 F) (iterations : Nat) :
    escape_loop sqrt widen c z iterations
      = if widen (c_abs sqrt z) < 2 ∧ iterations < MAX_ITERATIONS then
          escape_loop sqrt widen c (iteration_step z c) (iterations + 1)
        else iterations := by
  rw [escape_loop]
  rfl

/-- C14.  The step the kernel iterates, `(z.x*z.x + c.x, z.y*z.y + c.y)`, equals
the complex recurrence `c_add (c_mul z z) c` exactly when `z.y = 0`. -/
theorem iteration_step_eq_complex_iff {K : Type} [LinearOrderedField K] (z c : Complex1 K) :
    iteration_step z c = c_add (c_mul z z) c ↔ z.y = 0 := by
  simp only [iteration_step, c_add, c_mul, Complex1.mk.injEq]
  constructor
  · rintro ⟨h1, _⟩
    have h2 : z.y * z.y = 0 := by linarith
    exact mul_self_eq_zero.mp h2
  · intro h
    rw [h]
    constructor <;> ring

/-- On two's complement integers `r & 0xff` is the residue of `r` modulo 256. -/
theorem land_0xff_eq_emod (r : Int) : Int.land r 0xff = r % 256 := by
  cases r with
  | ofNat n =>
    show ((n &&& 255 : ℕ) : ℤ) = _
    have h : n &&& 255 = n % 256 := Nat.and_pow_two_sub_one_eq_mod n 8
    rw [h]
    rfl
  | negSucc n =>
    show ((Nat.ldiff 255 n : ℕ) : ℤ) = _
    have h1 : Nat.ldiff 255 n = 255 - n % 256 := by
      apply Nat.eq_of_testBit_eq
      intro i
      have e : 255 - n % 256 = 2 ^ 8 - (n % 2 ^ 8 + 1) := by norm_num; omega
      rw [e, Nat.testBit_two_pow_sub_succ (Nat.mod_lt _ (by norm_num)), Nat.testBit_ldiff,
        Nat.testBit_mod_two_pow]
      have e2 : (255 : ℕ) = 2 ^ 8 - 1 := by norm_num
      rw [e2, Nat.testBit_two_pow_sub_one]
      by_cases hi : i < 8 <;> simp [hi]
    rw [h1]
    have h2 : n % 256 < 256 := Nat.mod_lt _ (by norm_num)
    rw [Int.negSucc_emod n (by norm_num)]
    omega

theorem land_0xff_nat (r : Int) : ∃ R : Nat, Int.land r 0xff = (R : Int) ∧ R < 256 := by
  refine ⟨(r % 256).toNat, ?_, ?_⟩
  · rw [land_0xff_eq_emod, Int.toNat_of_nonneg (Int.emod_nonneg _ (by norm_num))]
  · have h1 := Int.emod_lt_of_pos r (by norm_num : (0 : ℤ) < 256)
    have h2 := Int.emod_nonneg r (by norm_num : (256 : ℤ) ≠ 0)
    omega

theorem makeColour_eq (r g b : Int) (R G B : Nat)
    (hR : Int.land r 0xff = (R : Int)) (hG : Int.land g 0xff = (G : Int))
    (hB : Int.land b 0xff = (B : Int)) (hR1 : R < 256) (hG1 : G < 256) (hB1 : B < 256) :
    makeColour r g b = R * 65536 + G * 256 + B := by
  unfold makeColour
  rw [hR, hG, hB, Int.shiftLeft_eq_mul_pow, Int.shiftLeft_eq_mul_pow]
  have h : ((R : ℤ) * ((2 ^ 16 : ℕ) : ℤ) + (G : ℤ) * ((2 ^ 8 : ℕ) : ℤ) + (B : ℤ)) % 2 ^ 32
      = ((R * 65536 + G * 256 + B : ℕ) : ℤ) := by
    push_cast
    omega
  rw [h, Int.toNat_ofNat]

/-- C16.  For all integers `r`, `g`, `b` the value `makeColour r g b` is below
`2 ^ 24` and is `0xRRGGBB` with `RR = r & 0xff`, `GG = g & 0xff`,
`BB = b & 0xff` (each a byte, the residue modulo 256); the three bytes
`write_tga` emits for a pixel holding it are `[b & 0xff, g & 0xff, r & 0xff]`;
and the bytes emitted for any pixel value are those of its lower 24 bits. -/
theorem makeColour_round_trip (r g b : Int) :
    makeColour r g b < 2 ^ 24 ∧
    ((makeColour r g b : Int)
      = Int.land r 0xff * 2 ^ 16 + Int.land g 0xff * 2 ^ 8 + Int.land b 0xff) ∧
    ((0 ≤ Int.land r 0xff ∧ Int.land r 0xff < 256) ∧
      (0 ≤ Int.land g 0xff ∧ Int.land g 0xff < 256) ∧
      (0 ≤ Int.land b 0xff ∧ Int.land b 0xff < 256)) ∧
    (Int.land r 0xff = r % 256 ∧ Int.land g 0xff = g % 256 ∧ Int.land b 0xff = b % 256) ∧
    pixel (makeColour r g b)
      = [(Int.land b 0xff).toNat, (Int.land g 0xff).toNat, (Int.land r 0xff).toNat] ∧
    (∀ v : Nat, pixel v = pixel (v % 2 ^ 24)) := by
  obtain ⟨R, hR, hR1⟩ := land_0xff_nat r
  obtain ⟨G, hG, hG1⟩ := land_0xff_nat g
  obtain ⟨B, hB, hB1⟩ := land_0xff_nat b
  have hv := makeColour_eq r g b R G B hR hG hB hR1 hG1 hB1
  refine ⟨?_, ?_, ?_, ⟨land_0xff_eq_emod r, land_0xff_eq_emod g, land_0xff_eq_emod b⟩, ?_, ?_⟩
  · rw [hv]
    norm_num
    omega
  · rw [hv, hR, hG, hB]
    push_cast
    ring
  · rw [hR, hG, hB]
    omega
  · rw [hv, hR, hG, hB, pixel_eq]
    simp only [Int.toNat_ofNat]
    congr 1
    · omega
    · congr 1
      · omega
      · congr 1
        omega
  · intro v
    rw [pixel_eq, pixel_eq]
    norm_num
    constructor <;> omega

end Mandelbrot
